import Mathlib

set_option autoImplicit false

namespace VersaBlog

/-! Shallow embedding of the VersaBlog backend core (category hierarchy
integrity, slug derivation and de-confliction, safe deletion, filter
compilation, batched relational loading and post lifecycle), translated
from `src/models/Category.js`, `src/models/Post.js` and
`src/graphql/resolvers.js`.  Mongo ObjectIds are modelled as `Nat`,
timestamps as `Nat`, and each collection as a `List` of records. -/

/-- A Category document (`src/models/Category.js`).  Only the fields the
claims touch are kept. -/
structure Category where
  id : Nat
  name : String
  slug : String
  parent : Option Nat
  isActive : Bool
  deriving Repr, DecidableEq

/-- A Post document (`src/models/Post.js`).  `updatedAt` is the
declared path of line 50, stamped on every save by `timestamps: true`
(line 91); `createdAt` is omitted since no modelled operation changes
it after creation.  The soft-delete marker `isDeleted`/`deletedAt` is
called on by `src/graphql/resolvers.js` (every default read filters on
it) but the provided `models/Post.js` snapshot predates it; the two
fields are therefore carried here as the spec describes them (false /
absent until a soft delete). -/
structure Post where
  id : Nat
  title : String
  content : String
  slug : Option String
  status : String
  publishedAt : Option Nat
  updatedAt : Nat
  version : Nat
  categories : List Nat
  tags : List Nat
  author : Option String
  viewCount : Nat
  readingTime : Nat
  isDeleted : Bool
  deletedAt : Option Nat
  deriving Repr, DecidableEq

/-- `Category.findById` on a collection: first document with the id. -/
def findCat (cats : List Category) (i : Nat) : Option Category :=
  cats.find? (fun c => c.id == i)

/-- Outcome of the `parent` field validator of `CategorySchema`
(`src/models/Category.js` lines 32-59).  The code returns a plain
boolean; the constructors tag which `return` site produced it:
`valid` for the `return true` sites, `selfRef` / `notFound` /
`circular` for the three `return false` sites, and `lookupFailed` for
the TypeError the walk would hit when a parent id present on a record
has no document. -/
inductive ParentCheck where
  | valid
  | selfRef
  | notFound
  | circular
  | lookupFailed
  deriving Repr, DecidableEq

/-- The ancestor walk of the parent validator
(`src/models/Category.js` lines 45-54):

    let currentParent = parent; let depth = 0;
    while (currentParent.parent && depth < 10) {
      if (currentParent.parent.toString() === this._id?.toString()) return false;
      currentParent = await this.constructor.findById(currentParent.parent);
      depth++;
    }
    return true;

`fuel` is `10 - depth`; when it runs out with a parent link still
present the loop exits and the validator returns `true`. -/
def ancestorWalk (cats : List Category) (target : Nat) : Nat → Category → ParentCheck
  | _, ⟨_, _, _, none, _⟩ => .valid
  | 0, _ => .valid
  | fuel + 1, ⟨_, _, _, some pid, _⟩ =>
    if pid = target then .circular
    else
      match findCat cats pid with
      | none => .lookupFailed
      | some next => ancestorWalk cats target fuel next

/-- The `parent` validator of `CategorySchema`
(`src/models/Category.js` lines 32-59): accept a missing parent,
reject self-reference, reject a missing parent document, then run the
bounded ancestor walk. -/
def validateParent (cats : List Category) (target : Nat) (v : Option Nat) : ParentCheck :=
  match v with
  | none => .valid
  | some pid =>
    if pid = target then .selfRef
    else
      match findCat cats pid with
      | none => .notFound
      | some parent => ancestorWalk cats target 10 parent

/-- Specification-side predicate for claim statements: starting at
category `c`, some node within `fuel` parent-hops (with every lookup on
the way succeeding) carries `target` as its `parent` link, i.e. `c` is a
descendant chain that leads back to `target`. -/
def hitsTarget (cats : List Category) (target : Nat) : Nat → Category → Bool
  | 0, _ => false
  | fuel + 1, c =>
    match c.parent with
    | none => false
    | some p =>
      p == target ||
        (match findCat cats p with
         | none => false
         | some next => hitsTarget cats target fuel next)

/-- Specification-side predicate: from `c`, ten consecutive parent hops
all succeed, never point at `target`, and the node reached after them
still has a parent — the walk would need more than 10 hops to reach a
root. -/
def deepChain (cats : List Category) (target : Nat) : Nat → Category → Bool
  | 0, c => c.parent.isSome
  | fuel + 1, c =>
    match c.parent with
    | none => false
    | some p =>
      !(p == target) &&
        (match findCat cats p with
         | none => false
         | some next => deepChain cats target fuel next)

theorem ancestorWalk_of_hitsTarget (cats : List Category) (target : Nat) :
    ∀ fuel walkFuel c, fuel ≤ walkFuel →
      hitsTarget cats target fuel c = true →
      ancestorWalk cats target walkFuel c = .circular := by
  intro fuel
  induction fuel with
  | zero => intro walkFuel c _ h; simp [hitsTarget] at h
  | succ n ih =>
    intro walkFuel c hle h
    obtain ⟨wf, rfl⟩ : ∃ wf, walkFuel = wf + 1 := ⟨walkFuel - 1, by omega⟩
    obtain ⟨i, n', t, p, a⟩ := c
    match p with
    | none => simp [hitsTarget] at h
    | some pid =>
      simp only [hitsTarget, Bool.or_eq_true, beq_iff_eq] at h
      rcases h with h | h
      · subst h; simp [ancestorWalk]
      · by_cases hpt : pid = target
        · simp [ancestorWalk, hpt]
        · match hfind : findCat cats pid with
          | none => rw [hfind] at h; simp at h
          | some next =>
            rw [hfind] at h
            simp only [ancestorWalk, hpt, if_false, hfind]
            exact ih wf next (Nat.le_of_succ_le_succ hle) h

theorem ancestorWalk_of_deepChain (cats : List Category) (target : Nat) :
    ∀ fuel c, deepChain cats target fuel c = true →
      ancestorWalk cats target fuel c = .valid := by
  intro fuel
  induction fuel with
  | zero =>
    intro c h
    obtain ⟨i, n', t, p, a⟩ := c
    match p with
    | none => simp [ancestorWalk]
    | some pid => simp [ancestorWalk]
  | succ n ih =>
    intro c h
    obtain ⟨i, n', t, p, a⟩ := c
    match p with
    | none => simp [deepChain] at h
    | some pid =>
      simp only [deepChain, Bool.and_eq_true, Bool.not_eq_true', beq_eq_false_iff_ne,
        ne_eq] at h
      obtain ⟨hpt, h⟩ := h
      match hfind : findCat cats pid with
      | none => rw [hfind] at h; simp at h
      | some next =>
        rw [hfind] at h
        simp only [ancestorWalk, hpt, if_false, hfind]
        exact ih next h

/-- C1: the parent validator accepts a missing parent, rejects a
self-referential parent, rejects a parent id with no document, rejects
(as a circular reference) a proposed parent that descends from the
target within the 10-hop bound, and accepts an unrelated root. -/
theorem validateParent_cases (cats : List Category) (t : Nat) :
    validateParent cats t none = .valid
    ∧ validateParent cats t (some t) = .selfRef
    ∧ (∀ y, y ≠ t → findCat cats y = none → validateParent cats t (some y) = .notFound)
    ∧ (∀ y c, y ≠ t → findCat cats y = some c → c.parent = none →
        validateParent cats t (some y) = .valid)
    ∧ (∀ y c, y ≠ t → findCat cats y = some c → hitsTarget cats t 10 c = true →
        validateParent cats t (some y) = .circular) := by
  refine ⟨rfl, by simp [validateParent], ?_, ?_, ?_⟩
  · intro y hyt hfind
    simp [validateParent, hyt, hfind]
  · intro y c hyt hfind hroot
    simp only [validateParent, hyt, if_false, hfind]
    obtain ⟨i, n', s, p, a⟩ := c
    simp only at hroot
    subst hroot
    simp [ancestorWalk]
  · intro y c hyt hfind hdesc
    simp only [validateParent, hyt, if_false, hfind]
    exact ancestorWalk_of_hitsTarget cats t 10 10 c (Nat.le_refl 10) hdesc

/-- Concrete store for the hierarchy-validator witnesses: category 1 is
a root, 2 is a child of 1, 3 a child of 2, 4 an unrelated root. -/
def hierStore : List Category :=
  [⟨1, "a", "a", none, true⟩,
   ⟨2, "b", "b", some 1, true⟩,
   ⟨3, "c", "c", some 2, true⟩,
   ⟨4, "d", "d", none, true⟩]

/-- Witness for C1 at the concrete store: reparenting category 1 under
its grandchild 3 is rejected as circular, the missing id 99 as
not-found, self as self-reference, and the unrelated root 4 accepted. -/
theorem validateParent_cases_witness :
    validateParent hierStore 1 none = .valid
    ∧ validateParent hierStore 1 (some 1) = .selfRef
    ∧ validateParent hierStore 1 (some 99) = .notFound
    ∧ validateParent hierStore 1 (some 4) = .valid
    ∧ validateParent hierStore 1 (some 3) = .circular := by
  obtain ⟨h1, h2, h3, h4, h5⟩ := validateParent_cases hierStore 1
  exact ⟨h1, h2,
    h3 99 (by decide) (by decide),
    h4 4 ⟨4, "d", "d", none, true⟩ (by decide) (by decide) rfl,
    h5 3 ⟨3, "c", "c", some 2, true⟩ (by decide) (by decide) (by decide)⟩

/-- A 13-deep parent chain (ids 1..13, each pointing one up, 13 a root)
together with the unrelated target category 100; walking up from
category 1 needs 12 hops to reach the root. -/
def deepStore : List Category :=
  (List.range 12).map (fun k => ⟨k + 1, "c", "c", some (k + 2), true⟩)
    |>.append [⟨13, "r", "r", none, true⟩, ⟨100, "t", "t", none, true⟩]

/-- C3 counterexample: assigning category 1 (root of a chain deeper than
10 hops) as the parent of category 100 is ACCEPTED by the validator —
the `depth < 10` guard merely stops the walk, after which the validator
returns `true`; there is no depth-exceeded rejection (`ParentCheck` has
no such outcome because the code has no such `return`). -/
theorem validateParent_deep_accepts :
    validateParent deepStore 100 (some 1) = .valid := by decide

/-- C3 amended: whenever the ancestor walk from the proposed parent
performs 10 successful hops that never meet the target and the node
reached still has a parent (so the walk would exceed 10 hops without
reaching a root), the validator stops and ACCEPTS the assignment. -/
theorem validateParent_deep_general (cats : List Category) (t y : Nat) (c : Category)
    (hyt : y ≠ t) (hfind : findCat cats y = some c)
    (hdeep : deepChain cats t 10 c = true) :
    validateParent cats t (some y) = .valid := by
  simp only [validateParent, hyt, if_false, hfind]
  exact ancestorWalk_of_deepChain cats t 10 c hdeep

/-- Witness for the amended C3 theorem on the concrete 13-deep chain. -/
theorem validateParent_deep_general_witness :
    validateParent deepStore 100 (some 1) = .valid := by
  exact validateParent_deep_general deepStore 100 1
    ⟨1, "c", "c", some 2, true⟩ (by decide) (by decide) (by decide)

/-! ### Identifier derivation (`src/models/Post.js` lines 142-148) -/

/-- The characters JS `\s` matches, restricted to ASCII. -/
def isWsChar (c : Char) : Bool :=
  c = ' ' || c = '\t' || c = '\n' || c = '\r' || c = Char.ofNat 11 || c = Char.ofNat 12

/-- ASCII `String.prototype.toLowerCase` on one character. -/
def jsToLowerChar (c : Char) : Char :=
  if 'A' ≤ c ∧ c ≤ 'Z' then Char.ofNat (c.toNat + 32) else c

/-- The character class kept by `.replace(/[^a-z0-9\s-]/g, '')`. -/
def keepSlugChar (c : Char) : Bool :=
  ('a' ≤ c && c ≤ 'z') || ('0' ≤ c && c ≤ '9') || isWsChar c || c = '-'

/-- `.replace(/\s+/g, '-')`: each maximal whitespace run becomes a single
hyphen.  The flag records whether the previous character was whitespace. -/
def wsRunsAux : Bool → List Char → List Char
  | _, [] => []
  | inRun, c :: rest =>
    if isWsChar c then
      if inRun then wsRunsAux true rest else '-' :: wsRunsAux true rest
    else c :: wsRunsAux false rest

/-- The hyphen-run replace (regex "-+" to a single "-"): each maximal
hyphen run becomes a single hyphen. -/
def hyphenRunsAux : Bool → List Char → List Char
  | _, [] => []
  | inRun, c :: rest =>
    if c = '-' then
      if inRun then hyphenRunsAux true rest else '-' :: hyphenRunsAux true rest
    else c :: hyphenRunsAux false rest

/-- `String.prototype.trim`: strip leading and trailing whitespace. -/
def jsTrim (l : List Char) : List Char :=
  ((l.dropWhile isWsChar).reverse.dropWhile isWsChar).reverse

/-- The slug derivation of `PostSchema.pre('save')`
(`src/models/Post.js` lines 142-148; the category model in
`src/unnamed/part_001` lines 90-95 is character-identical):

lower-case the title, strip every character outside lowercase
letters / digits / whitespace / hyphen, replace whitespace runs with a
single hyphen, replace hyphen runs with a single hyphen, then `.trim()`.

Note the final step is a whitespace trim, applied after all whitespace
has already been turned into hyphens. -/
def slugify (s : String) : String :=
  String.mk (jsTrim (hyphenRunsAux false (wsRunsAux false
    ((s.data.map jsToLowerChar).filter keepSlugChar))))

/-- JS `split(/\s+/)` on a character list: the pieces between maximal
whitespace runs, where a leading (trailing) run contributes an empty
first (last) piece.  `cur` is the reversed piece under construction and
the flag records whether the previous character was whitespace. -/
def splitWsAux : List Char → List Char → Bool → List (List Char)
  | [], cur, _ => [cur.reverse]
  | c :: rest, cur, prevWs =>
    if isWsChar c then
      if prevWs then splitWsAux rest cur true
      else cur.reverse :: splitWsAux rest [] true
    else splitWsAux rest (c :: cur) false

/-- Join pieces with single hyphens (specification-side formulation of
"runs of whitespace collapsed to single hyphens"). -/
def joinHyphen : List (List Char) → List Char
  | [] => []
  | [x] => x
  | x :: xs => x ++ '-' :: joinHyphen xs

/-- Strip leading and trailing hyphens (specification-side). -/
def trimHyphens (l : List Char) : List Char :=
  ((l.dropWhile (fun c => c = '-')).reverse.dropWhile (fun c => c = '-')).reverse

/-- The Identifier Deriver as §4.1 of the spec words it, for comparison
with `slugify`: lower-cased, non-alphanumerics other than
whitespace/hyphen stripped, whitespace runs collapsed to single hyphens,
hyphen runs collapsed to one, leading/trailing hyphens trimmed, and an
input whose characters are all stripped is a reportable error. -/
def deriveIdentifierSpec (s : String) : Except String String :=
  let pieces := splitWsAux ((s.data.map jsToLowerChar).filter keepSlugChar) [] false
  let joined := trimHyphens (hyphenRunsAux false (joinHyphen pieces))
  if joined = [] then .error "empty identifier" else .ok (String.mk joined)

/-- The spec-side normalization WITHOUT the final hyphen trim; the
amended C4 claim states that `slugify` equals this. -/
def slugifySpecNoTrim (s : String) : String :=
  String.mk (hyphenRunsAux false (joinHyphen
    (splitWsAux ((s.data.map jsToLowerChar).filter keepSlugChar) [] false)))

theorem splitWsAux_ne_nil (l : List Char) :
    ∀ cur b, splitWsAux l cur b ≠ [] := by
  induction l with
  | nil => intro cur b; simp [splitWsAux]
  | cons c rest ih =>
    intro cur b
    by_cases hws : isWsChar c
    · by_cases hb : b = true
      · subst hb; simp only [splitWsAux, hws, if_true]; exact ih cur true
      · replace hb : b = false := by revert hb; cases b <;> simp
        subst hb; simp [splitWsAux, hws]
    · simp only [splitWsAux, hws, if_false]
      exact ih (c :: cur) false

theorem joinHyphen_cons (x : List Char) (xs : List (List Char)) (h : xs ≠ []) :
    joinHyphen (x :: xs) = x ++ '-' :: joinHyphen xs := by
  cases xs with
  | nil => exact absurd rfl h
  | cons y ys => rfl

theorem joinHyphen_splitWsAux (l : List Char) :
    ∀ cur b, joinHyphen (splitWsAux l cur b) = cur.reverse ++ wsRunsAux b l := by
  induction l with
  | nil => intro cur b; simp [splitWsAux, joinHyphen, wsRunsAux]
  | cons c rest ih =>
    intro cur b
    by_cases hws : isWsChar c
    · cases b with
      | true =>
        simp only [splitWsAux, hws, if_true, wsRunsAux]
        exact ih cur true
      | false =>
        simp [splitWsAux, hws, wsRunsAux]
        rw [joinHyphen_cons _ _ (splitWsAux_ne_nil rest [] true), ih [] true]
        simp
    · simp [splitWsAux, hws, wsRunsAux]
      rw [ih (c :: cur) false]
      simp

theorem wsRunsAux_no_ws (l : List Char) :
    ∀ b c, c ∈ wsRunsAux b l → isWsChar c = false := by
  induction l with
  | nil => intro b c h; simp [wsRunsAux] at h
  | cons a rest ih =>
    intro b c h
    by_cases hws : isWsChar a
    · cases b with
      | true =>
        simp only [wsRunsAux, hws, if_true] at h
        exact ih true c h
      | false =>
        simp only [wsRunsAux, hws, if_true] at h
        rcases List.mem_cons.mp h with h | h
        · subst h; decide
        · exact ih true c h
    · simp only [wsRunsAux, hws, if_false] at h
      rcases List.mem_cons.mp h with h | h
      · subst h; simpa using hws
      · exact ih false c h

theorem hyphenRunsAux_mem (l : List Char) :
    ∀ b c, c ∈ hyphenRunsAux b l → c = '-' ∨ c ∈ l := by
  induction l with
  | nil => intro b c h; simp [hyphenRunsAux] at h
  | cons a rest ih =>
    intro b c h
    by_cases hh : a = '-'
    · cases b with
      | true =>
        simp only [hyphenRunsAux, hh, if_true] at h
        rcases ih true c h with h | h
        · exact Or.inl h
        · exact Or.inr (List.mem_cons_of_mem _ h)
      | false =>
        simp only [hyphenRunsAux, hh, if_true] at h
        rcases List.mem_cons.mp h with h | h
        · exact Or.inl h
        · rcases ih true c h with h | h
          · exact Or.inl h
          · exact Or.inr (List.mem_cons_of_mem _ h)
    · simp only [hyphenRunsAux, hh, if_false] at h
      rcases List.mem_cons.mp h with h | h
      · subst h; exact Or.inr (List.mem_cons_self _ _)
      · rcases ih false c h with h | h
        · exact Or.inl h
        · exact Or.inr (List.mem_cons_of_mem _ h)

theorem jsTrim_of_no_ws (l : List Char) (h : ∀ c ∈ l, isWsChar c = false) :
    jsTrim l = l := by
  have hdrop : ∀ m : List Char, (∀ c ∈ m, isWsChar c = false) → m.dropWhile isWsChar = m := by
    intro m hm
    cases m with
    | nil => rfl
    | cons a t =>
      have := hm a (List.mem_cons_self _ _)
      simp [List.dropWhile, this]
  unfold jsTrim
  rw [hdrop l h, hdrop l.reverse (fun c hc => h c (List.mem_reverse.mp hc)), List.reverse_reverse]

/-- C4 counterexample: on the input `" x "` the code derives `"-x-"` —
the leading/trailing hyphens produced from surrounding whitespace are
NOT trimmed (the final `.trim()` only strips whitespace, of which none
remains) — while the spec's normalization yields `"x"`. -/
theorem slugify_counterexample :
    slugify " x " = "-x-"
    ∧ (deriveIdentifierSpec " x ").toOption = some "x"
    ∧ ("-x-" : String) ≠ "x" := by
  refine ⟨by decide, by decide, by decide⟩

/-- C4 amended: the derived identifier equals the input lower-cased,
with non-alphanumerics other than whitespace/hyphen stripped, whitespace
runs collapsed to single hyphens and hyphen runs collapsed to one, but
WITHOUT trimming leading/trailing hyphens (the final trim removes only
whitespace, which no longer occurs); derivation is a pure function of
the input, and an input whose characters are all stripped yields the
empty string rather than an error. -/
theorem slugify_eq_specNoTrim :
    (∀ s, slugify s = slugifySpecNoTrim s) ∧ slugify "!!!" = "" := by
  constructor
  · intro s
    unfold slugify slugifySpecNoTrim
    rw [joinHyphen_splitWsAux]
    simp only [List.reverse_nil, List.nil_append]
    congr 1
    apply jsTrim_of_no_ws
    intro c hc
    rcases hyphenRunsAux_mem _ _ _ hc with h | h
    · subst h; decide
    · exact wsRunsAux_no_ws _ _ _ h
  · decide

/-! ### Post pre-save middleware (`src/models/Post.js` lines 140-168) -/

/-- JS truthiness of the `slug` path: `null`/`undefined` and the empty
string are falsy. -/
def slugFalsy : Option String → Bool
  | none => true
  | some s => s == ""

/-- Word count and reading time of `PostSchema.pre('save')`:
`content.split(/\s+/).length`, then `Math.ceil(wordCount / 200)`. -/
def readingTimeOf (content : String) : Nat :=
  ((splitWsAux content.data [] false).length + 199) / 200

/-- First block of `PostSchema.pre('save')` (`src/models/Post.js` lines
142-149): derive the slug from the title when the slug is absent. -/
def slugStep (p : Post) : Post :=
  if slugFalsy p.slug && p.title != "" then
    { p with slug := some (slugify p.title) } else p

/-- Second block of `PostSchema.pre('save')` (lines 152-155): recompute
the reading time from the content. -/
def readingStep (p : Post) : Post :=
  if p.content != "" then
    { p with readingTime := readingTimeOf p.content } else p

/-- Last two blocks of `PostSchema.pre('save')` (lines 157-165): set
`publishedAt` when publishing without a date, and clear it for any
non-published status. -/
def publishStep (p : Post) (now : Nat) : Post :=
  let p3 := if p.status == "published" && p.publishedAt.isNone then
    { p with publishedAt := some now } else p
  if p3.status != "published" then { p3 with publishedAt := none } else p3

/-- `PostSchema.pre('save')` (`src/models/Post.js` lines 140-168): the
three blocks in source order. -/
def preSavePost (p : Post) (now : Nat) : Post :=
  publishStep (readingStep (slugStep p)) now

/-- The document save step: `save` runs `PostSchema.pre('save')`, and
because the schema passes `timestamps: true` (`src/models/Post.js`
lines 50, 91) mongoose stamps `updatedAt` with the save time on every
save. -/
def savePost (p : Post) (now : Nat) : Post :=
  { preSavePost p now with updatedAt := now }

theorem slugStep_status (p : Post) : (slugStep p).status = p.status := by
  unfold slugStep; split <;> rfl

theorem slugStep_publishedAt (p : Post) : (slugStep p).publishedAt = p.publishedAt := by
  unfold slugStep; split <;> rfl

theorem readingStep_status (p : Post) : (readingStep p).status = p.status := by
  unfold readingStep; split <;> rfl

theorem readingStep_publishedAt (p : Post) : (readingStep p).publishedAt = p.publishedAt := by
  unfold readingStep; split <;> rfl

theorem publishStep_spec (q : Post) (now : Nat) :
    ((publishStep q now).publishedAt.isSome = ((publishStep q now).status == "published"))
    ∧ (q.status = "published" → q.publishedAt = none →
        (publishStep q now).publishedAt = some now)
    ∧ (q.status ≠ "published" → (publishStep q now).publishedAt = none) := by
  by_cases h : q.status = "published"
  · cases hpa : q.publishedAt with
    | none =>
      refine ⟨?_, fun _ _ => ?_, fun hne => absurd h hne⟩ <;>
        simp [publishStep, h, hpa]
    | some ts =>
      refine ⟨?_, fun _ hnone => absurd hnone (by simp [hpa]), fun hne => absurd h hne⟩
      simp [publishStep, h, hpa]
  · have hb : (q.status == "published") = false := by
      simpa using h
    refine ⟨?_, fun heq => absurd heq h, fun _ => ?_⟩ <;>
      simp [publishStep, hb, h]

/-- C8: after the pre-save step of any post write, `publishedAt` is
non-null iff the status is `published`; a write publishing a post with
no `publishedAt` assigns the current time, and a write with any other
status clears `publishedAt`. -/
theorem preSavePost_publishedAt (p : Post) (now : Nat) :
    ((preSavePost p now).publishedAt.isSome = ((preSavePost p now).status == "published"))
    ∧ (p.status = "published" → p.publishedAt = none →
        (preSavePost p now).publishedAt = some now)
    ∧ (p.status ≠ "published" → (preSavePost p now).publishedAt = none) := by
  have hs : (readingStep (slugStep p)).status = p.status := by
    rw [readingStep_status, slugStep_status]
  have hp : (readingStep (slugStep p)).publishedAt = p.publishedAt := by
    rw [readingStep_publishedAt, slugStep_publishedAt]
  obtain ⟨h1, h2, h3⟩ := publishStep_spec (readingStep (slugStep p)) now
  refine ⟨h1, ?_, ?_⟩
  · intro ha hb
    exact h2 (hs.trans ha) (hp.trans hb)
  · intro ha
    exact h3 (by rw [hs]; exact ha)

/-- Witness for C8 at two concrete posts: publishing a dated-less draft
stamps the time; saving with a non-published status clears the date. -/
theorem preSavePost_publishedAt_witness :
    (preSavePost ⟨1, "t", "c", some "t", "published", none, 0, 1, [], [], none, 0, 0, false, none⟩ 7).publishedAt
        = some 7
    ∧ (preSavePost ⟨1, "t", "c", some "t", "draft", some 3, 0, 1, [], [], none, 0, 0, false, none⟩ 7).publishedAt
        = none := by
  exact ⟨(preSavePost_publishedAt _ 7).2.1 rfl rfl,
    (preSavePost_publishedAt _ 7).2.2 (by decide)⟩

/-! ### Slug uniqueness resolution (spec §4.2) -/

/-- Modelled from the spec: the repository's resolvers call Post-model
statics (`Post.findActive`, `Post.softDelete`) that the provided
`models/Post.js` snapshot does not define, and the snapshot's
`pre('save')` likewise lacks the slug de-confliction step the spec
locates there (§4.2); the Uniqueness Resolver is therefore modelled
from the spec.  `candAt cand k` is the candidate tried at step `k`:
the candidate itself, then `candidate-1`, `candidate-2`, …. -/
def candAt (cand : String) (k : Nat) : String :=
  if k = 0 then cand else cand ++ "-" ++ toString k

/-- Modelled from the spec: the Uniqueness Resolver loop of §4.2 — try
the candidate as-is; while the existence check answers true, append
`-1`, `-2`, …; return the first free candidate.  The spec imposes no
upper bound; `fuel` only makes the search total and is chosen by the
caller (one more than the number of stored posts always suffices). -/
def resolveFrom (taken : String → Bool) (cand : String) : Nat → Nat → Option String
  | _, 0 => none
  | k, fuel + 1 =>
    if taken (candAt cand k) then resolveFrom taken cand (k + 1) fuel
    else some (candAt cand k)

/-- Modelled from the spec: `resolveUniqueSlug(candidate, existsFn,
excludeId)` of §4.2/§6, starting at the candidate itself. -/
def resolveUniqueSlug (taken : String → Bool) (cand : String) (fuel : Nat) : Option String :=
  resolveFrom taken cand 0 fuel

/-- Modelled from the spec: the existence check `exists(candidate,
excludeId)` — true when some stored post other than the one being saved
already carries slug `s`. -/
def slugTaken (posts : List Post) (exclude : Nat) (s : String) : Bool :=
  posts.any (fun p => p.slug == some s && !(p.id == exclude))

/-- `Mutation.createPost` (`src/graphql/resolvers.js` lines 415-445)
restricted to a title/content payload, composed with the save step
(pre-save middleware plus timestamp stamp); the slug de-confliction
step inside the save path is modelled from the spec (§4.2). -/
def createPostFlow (posts : List Post) (newId : Nat) (title content : String) (now : Nat) :
    Except String (Post × List Post) :=
  let cand := slugify title
  match resolveUniqueSlug (slugTaken posts newId) cand (posts.length + 1) with
  | none => .error "slug resolution exhausted"
  | some slug =>
    let base : Post :=
      ⟨newId, title, content, some slug, "draft", none, 0, 1, [], [], none, 0, 0, false, none⟩
    let saved := savePost base now
    .ok (saved, posts ++ [saved])

/-- Storing three posts titled "Hello World" in sequence on an empty
collection. -/
def threeHelloWorlds : Except String (List Post) := do
  let r1 ← createPostFlow [] 1 "Hello World" "b" 0
  let r2 ← createPostFlow r1.2 2 "Hello World" "b" 1
  let r3 ← createPostFlow r2.2 3 "Hello World" "b" 2
  pure r3.2

theorem resolveFrom_first_free (taken : String → Bool) (cand : String) :
    ∀ j fuel k, j < fuel → taken (candAt cand (k + j)) = false →
      (∀ i, i < j → taken (candAt cand (k + i)) = true) →
      resolveFrom taken cand k fuel = some (candAt cand (k + j)) := by
  intro j
  induction j with
  | zero =>
    intro fuel k hlt hfree _
    obtain ⟨f, rfl⟩ : ∃ f, fuel = f + 1 := ⟨fuel - 1, by omega⟩
    simp only [Nat.add_zero] at hfree ⊢
    simp [resolveFrom, hfree]
  | succ n ih =>
    intro fuel k hlt hfree hall
    obtain ⟨f, rfl⟩ : ∃ f, fuel = f + 1 := ⟨fuel - 1, by omega⟩
    have h0 : taken (candAt cand k) = true := by
      have := hall 0 (Nat.succ_pos n)
      simpa using this
    simp only [resolveFrom, h0, if_true]
    have : k + 1 + n = k + (n + 1) := by omega
    rw [← this] at hfree
    have hall' : ∀ i, i < n → taken (candAt cand (k + 1 + i)) = true := by
      intro i hi
      have := hall (i + 1) (by omega)
      have harith : k + (i + 1) = k + 1 + i := by omega
      rwa [harith] at this
    have goalArith : k + 1 + n = k + (n + 1) := by omega
    rw [← goalArith]
    exact ih f (k + 1) (by omega) hfree hall'

/-- C2: the persisted slug is the first free candidate obtained by
appending `-1`, `-2`, … to the derived candidate (general first-free
property of the resolver), and concretely three posts titled "Hello
World" receive slugs `hello-world`, `hello-world-1`, `hello-world-2`
with no error surfaced for the collisions. -/
theorem uniqueSlug_first_free :
    (∀ (taken : String → Bool) (cand : String) (j fuel : Nat), j < fuel →
      taken (candAt cand j) = false →
      (∀ i, i < j → taken (candAt cand i) = true) →
      resolveUniqueSlug taken cand fuel = some (candAt cand j))
    ∧ threeHelloWorlds.toOption.map (fun s => s.map Post.slug)
        = some [some "hello-world", some "hello-world-1", some "hello-world-2"] := by
  constructor
  · intro taken cand j fuel hlt hfree hall
    have := resolveFrom_first_free taken cand j fuel 0 hlt (by simpa using hfree)
      (by intro i hi; simpa using hall i hi)
    simpa [resolveUniqueSlug] using this
  · decide

/-- Witness for C2's general component at a concrete taken-set: with
`"x"` already taken, the resolver returns `"x-1"`. -/
theorem uniqueSlug_first_free_witness :
    resolveUniqueSlug (fun s => s == "x") "x" 2 = some "x-1" := by
  have := uniqueSlug_first_free.1 (fun s => s == "x") "x" 1 2 (by decide)
    (by decide) (by intro i hi; interval_cases i; decide)
  simpa [candAt] using this

/-! ### Safe category deletion (`src/models/Category.js` lines 120-140) -/

/-- The reasons `CategorySchema.statics.safeDelete` throws, carrying the
blocking count its message reports. -/
inductive DeleteBlocked where
  | hasPosts (n : Nat)
  | hasSubcategories (n : Nat)
  deriving Repr, DecidableEq

/-- `Post.countDocuments(\x7b categories: id, isDeleted: false \x7d)`. -/
def postsUsing (posts : List Post) (i : Nat) : Nat :=
  (posts.filter (fun p => p.categories.contains i && !p.isDeleted)).length

/-- `this.countDocuments(\x7b parent: id \x7d)`. -/
def subcatsOf (cats : List Category) (i : Nat) : Nat :=
  (cats.filter (fun c => c.parent == some i)).length

/-- `CategorySchema.statics.safeDelete` (`src/models/Category.js` lines
120-140): reject with the count of referencing non-deleted posts, else
with the count of subcategories, else remove the category. -/
def safeDelete (cats : List Category) (posts : List Post) (i : Nat) :
    Except DeleteBlocked (List Category) :=
  let postCount := postsUsing posts i
  if postCount > 0 then .error (.hasPosts postCount)
  else
    let subcategoryCount := subcatsOf cats i
    if subcategoryCount > 0 then .error (.hasSubcategories subcategoryCount)
    else .ok (cats.filter (fun c => !(c.id == i)))

/-- C5: deletion of a category is rejected with the exact count of
referencing non-deleted posts when that count is positive (category
kept), else rejected with the exact subcategory count when positive
(category kept), and performed — the category removed, everything else
kept — when both counts are zero. -/
theorem safeDelete_guard (cats : List Category) (posts : List Post) (i : Nat) :
    (postsUsing posts i > 0 →
      safeDelete cats posts i = .error (.hasPosts (postsUsing posts i)))
    ∧ (postsUsing posts i = 0 → subcatsOf cats i > 0 →
      safeDelete cats posts i = .error (.hasSubcategories (subcatsOf cats i)))
    ∧ (postsUsing posts i = 0 → subcatsOf cats i = 0 →
      ∃ rest, safeDelete cats posts i = .ok rest
        ∧ ∀ c, c ∈ rest ↔ (c ∈ cats ∧ c.id ≠ i)) := by
  refine ⟨?_, ?_, ?_⟩
  · intro h; simp [safeDelete, h]
  · intro h0 h1; simp [safeDelete, h0, h1]
  · intro h0 h1
    refine ⟨cats.filter (fun c => !(c.id == i)), by simp [safeDelete, h0, h1], ?_⟩
    intro c
    simp [List.mem_filter]

/-- Witness for C5: a category with one referencing published post is
rejected with blocking count 1; a leaf category with no references is
deleted. -/
theorem safeDelete_guard_witness :
    safeDelete [⟨5, "n", "n", none, true⟩]
        [⟨1, "t", "c", some "t", "published", some 0, 0, 1, [5], [], none, 0, 0, false, none⟩] 5
      = .error (.hasPosts 1)
    ∧ safeDelete [⟨5, "n", "n", none, true⟩] [] 5 = .ok [] := by
  constructor
  · exact (safeDelete_guard [⟨5, "n", "n", none, true⟩]
      [⟨1, "t", "c", some "t", "published", some 0, 0, 1, [5], [], none, 0, 0, false, none⟩] 5).1
      (by decide)
  · obtain ⟨rest, hok, hmem⟩ := (safeDelete_guard [⟨5, "n", "n", none, true⟩] [] 5).2.2
      (by decide) (by decide)
    have : rest = [] := by
      cases rest with
      | nil => rfl
      | cons c t =>
        have := (hmem c).mp (List.mem_cons_self _ _)
        rcases this with ⟨hc, hne⟩
        simp at hc
        exact absurd (congrArg Category.id hc) (by simpa using hne)
    rw [this] at hok
    exact hok

/-! ### Filter query compilation (`src/graphql/resolvers.js` lines 105-166) -/

/-- The sparse GraphQL `PostFilter` input. -/
structure Filter where
  searchText : Option String := none
  status : Option String := none
  categoryId : Option Nat := none
  tagIds : Option (List Nat) := none
  publishedAfter : Option Nat := none
  publishedBefore : Option Nat := none
  authorId : Option String := none
  deriving Repr

/-- The clause `buildSearchQuery` produces: a full-text clause for
trimmed text longer than 2 characters, else a case-insensitive
substring clause over title and content. -/
inductive SearchClause where
  | textSearch (s : String)
  | regexOr (s : String)
  deriving Repr, DecidableEq

/-- `buildSearchQuery` (`src/graphql/resolvers.js` lines 105-123) for a
present string input: trim; empty contributes no clause; length > 2
picks the text-index clause, otherwise the regex clause. -/
def buildSearchQuery (s : String) : Option SearchClause :=
  let trimmedText := String.mk (jsTrim s.data)
  if trimmedText = "" then none
  else if trimmedText.length > 2 then some (.textSearch trimmedText)
  else some (.regexOr trimmedText)

/-- The Mongo query object `buildFilterQuery` assembles: one optional
clause per filter field plus the unconditional soft-delete exclusion. -/
structure MongoQuery where
  isDeletedEq : Bool
  search : Option SearchClause
  statusEq : Option String
  categoriesHas : Option Nat
  tagsIn : Option (List Nat)
  publishedGte : Option Nat
  publishedLte : Option Nat
  authorEq : Option String
  deriving Repr

/-- `buildFilterQuery` (`src/graphql/resolvers.js` lines 126-166):
start from the soft-delete exclusion and add a clause for each field
present (a present but empty tag list contributes no clause; date
bounds become `$gte`/`$lte`). -/
def buildFilterQuery (f : Filter) : MongoQuery :=
  { isDeletedEq := false
    search :=
      match f.searchText with
      | none => none
      | some s => if s = "" then none else buildSearchQuery s
    statusEq := f.status
    categoriesHas := f.categoryId
    tagsIn :=
      match f.tagIds with
      | none => none
      | some ts => if ts.isEmpty then none else some ts
    publishedGte := f.publishedAfter
    publishedLte := f.publishedBefore
    authorEq := f.authorId }

/-- ASCII lower-casing of a whole string. -/
def toLowerStr (s : String) : String :=
  String.mk (s.data.map jsToLowerChar)

/-- Substring test on character lists (`needle` before `haystack`). -/
def containsSub (needle : List Char) : List Char → Bool
  | [] => needle.isEmpty
  | c :: t => needle.isPrefixOf (c :: t) || containsSub needle t

/-- The case-insensitive regex clause of `buildSearchQuery`: the
trimmed text occurs in the title or the content. -/
def regexOrMatches (r : String) (p : Post) : Bool :=
  containsSub (toLowerStr r).data (toLowerStr p.title).data
    || containsSub (toLowerStr r).data (toLowerStr p.content).data

/-- Lower-cased whitespace-separated tokens of a string. -/
def searchTokens (s : String) : List (List Char) :=
  (splitWsAux (toLowerStr s).data [] false).filter (fun w => !w.isEmpty)

/-- MongoDB `$text` over the `post_text_search` index, modelled as a
case-insensitive token match over title and content (stemming and the
two low-weight meta fields are outside the model). -/
def textSearchMatches (q : String) (p : Post) : Bool :=
  let docTokens := searchTokens p.title ++ searchTokens p.content
  (searchTokens q).any (fun t => docTokens.contains t)

def searchClauseMatches (sc : SearchClause) (p : Post) : Bool :=
  match sc with
  | .textSearch q => textSearchMatches q p
  | .regexOr r => regexOrMatches r p

/-- Satisfaction of the compiled Mongo query by a stored post: the
conjunction of its clauses, with Mongo array-containment semantics for
`categories`, intersection semantics for the tag list, and range
clauses that a missing `publishedAt` does not satisfy. -/
def postMatches (q : MongoQuery) (p : Post) : Bool :=
  (p.isDeleted == q.isDeletedEq)
  && (match q.search with
      | none => true
      | some sc => searchClauseMatches sc p)
  && (match q.statusEq with
      | none => true
      | some st => p.status == st)
  && (match q.categoriesHas with
      | none => true
      | some c => p.categories.contains c)
  && (match q.tagsIn with
      | none => true
      | some ts => p.tags.any (fun t => ts.contains t))
  && (match q.publishedGte with
      | none => true
      | some a =>
        match p.publishedAt with
        | some t => decide (a ≤ t)
        | none => false)
  && (match q.publishedLte with
      | none => true
      | some b =>
        match p.publishedAt with
        | some t => decide (t ≤ b)
        | none => false)
  && (match q.authorEq with
      | none => true
      | some a => p.author == some a)

/-- C6: the compiled filter is the conjunction of exactly the clauses
for the fields present, always conjoined with the soft-delete
exclusion: the empty filter matches exactly the non-deleted posts; the
status+tag filter matches exactly the non-deleted published posts
referencing the tag (conjunction, not union); absent fields contribute
no clause; and the publish-date bounds are inclusive on both ends. -/
theorem buildFilterQuery_semantics :
    (∀ p, postMatches (buildFilterQuery {}) p = !p.isDeleted)
    ∧ (∀ p, postMatches (buildFilterQuery { status := some "published", tagIds := some [1] }) p
        = (!p.isDeleted && (p.status == "published") && p.tags.contains 1))
    ∧ (∀ f p, f.searchText = none →
        postMatches (buildFilterQuery f) p
          = (!p.isDeleted
            && (f.status.elim true (fun st => p.status == st))
            && (f.categoryId.elim true (fun c => p.categories.contains c))
            && (f.tagIds.elim true (fun ts =>
                if ts.isEmpty then true else p.tags.any (fun t => ts.contains t)))
            && (f.publishedAfter.elim true (fun a =>
                p.publishedAt.elim false (fun t => decide (a ≤ t))))
            && (f.publishedBefore.elim true (fun b =>
                p.publishedAt.elim false (fun t => decide (t ≤ b))))
            && (f.authorId.elim true (fun a => p.author == some a))))
    ∧ (∀ p t, p.publishedAt = some t →
        postMatches
          (buildFilterQuery { publishedAfter := some t, publishedBefore := some t }) p
          = !p.isDeleted) := by
  refine ⟨?_, ?_, ?_, ?_⟩
  · intro p
    cases hd : p.isDeleted <;> simp [postMatches, buildFilterQuery, hd]
  · intro p
    have htag : (p.tags.any fun t => decide (t = 1)) = decide (1 ∈ p.tags) := by
      induction p.tags with
      | nil => simp
      | cons a l ih => simp [ih, eq_comm]
    cases hd : p.isDeleted <;>
      simp [postMatches, buildFilterQuery, hd, Bool.and_assoc, htag]
  · intro f p hsearch
    obtain ⟨fs, fst, fc, ft, fa, fb, fau⟩ := f
    simp only at hsearch
    subst hsearch
    cases hd : p.isDeleted <;>
      cases fst <;> cases fc <;> rcases ft with _ | (_ | ⟨ftag, ftags⟩) <;>
        cases fa <;> cases fb <;> cases fau <;>
          cases hpub : p.publishedAt <;>
            simp [postMatches, buildFilterQuery, hd, hpub, Option.elim, Bool.and_assoc]
  · intro p t hp
    cases hd : p.isDeleted <;>
      simp [postMatches, buildFilterQuery, hd, hp]

/-- Witness for C6's conditional components at a concrete filter and
post: the no-search decomposition holds for a status-only filter, and a
post published exactly at the boundary matches the inclusive bounds. -/
theorem buildFilterQuery_semantics_witness :
    postMatches (buildFilterQuery { status := some "draft" })
        ⟨1, "t", "c", some "t", "published", some 4, 0, 1, [], [1], none, 0, 0, false, none⟩
      = false
    ∧ postMatches
        (buildFilterQuery { publishedAfter := some 4, publishedBefore := some 4 })
        ⟨1, "t", "c", some "t", "published", some 4, 0, 1, [], [1], none, 0, 0, false, none⟩
      = true := by
  have pDef :
      (⟨1, "t", "c", some "t", "published", some 4, 0, 1, [], [1], none, 0, 0, false, none⟩ :
        Post).publishedAt = some 4 := rfl
  constructor
  · rw [buildFilterQuery_semantics.2.2.1 { status := some "draft" } _ rfl]
    decide
  · rw [buildFilterQuery_semantics.2.2.2 _ 4 pDef]
    decide

/-! ### Batched relational loaders (`src/graphql/resolvers.js` lines 16-89) -/

/-- A Tag document (`src/models/Tag.js`). -/
structure Tag where
  id : Nat
  name : String
  slug : String
  deriving Repr, DecidableEq

/-- Modelled from the spec: `Post.findActive` is called throughout
`src/graphql/resolvers.js` but is not defined in the provided
`models/Post.js` snapshot; per the spec, soft-deleted posts are
excluded from all default reads. -/
def findActive (posts : List Post) (pred : Post → Bool) : List Post :=
  posts.filter (fun p => !p.isDeleted && pred p)

/-- The `categories` batch function of `createLoaders`
(`src/graphql/resolvers.js` lines 18-31): fetch the active categories
among the requested ids, then map each requested id back to its match
or `null`. -/
def categoriesBatch (cats : List Category) (ids : List Nat) : List (Option Category) :=
  let found := cats.filter (fun c => ids.contains c.id && c.isActive)
  ids.map (fun i => found.find? (fun c => c.id == i))

/-- The `tags` batch function (lines 34-43). -/
def tagsBatch (tags : List Tag) (ids : List Nat) : List (Option Tag) :=
  let found := tags.filter (fun t => ids.contains t.id)
  ids.map (fun i => found.find? (fun t => t.id == i))

/-- The `posts` batch function (lines 46-55), through `Post.findActive`. -/
def postsBatch (posts : List Post) (ids : List Nat) : List (Option Post) :=
  let found := findActive posts (fun p => ids.contains p.id)
  ids.map (fun i => found.find? (fun p => p.id == i))

/-- The `subcategories` batch function (lines 58-71): fetch the active
categories whose parent is among the requested ids, then group them per
requested parent id. -/
def subcategoriesBatch (cats : List Category) (parentIds : List Nat) : List (List Category) :=
  let found := cats.filter (fun c =>
    (match c.parent with
     | some p => parentIds.contains p
     | none => false) && c.isActive)
  parentIds.map (fun pid => found.filter (fun c => c.parent == some pid))

/-- The `categoryPostCounts` batch function (lines 74-88) as the Mongo
aggregation pipeline: match published non-deleted posts referencing any
requested category, unwind their category arrays, keep the requested
ids, group-count, and read each requested id out of the count map with
default 0. -/
def categoryPostCountsBatch (posts : List Post) (ids : List Nat) : List Nat :=
  let matched := posts.filter (fun p =>
    p.categories.any (fun c => ids.contains c) && !p.isDeleted && p.status == "published")
  let unwound := (matched.map Post.categories).flatten
  let grouped := unwound.filter (fun c => ids.contains c)
  ids.map (fun i => grouped.count i)

theorem find?_filter_comm {α : Type} (l : List α) (q p : α → Bool) :
    (l.filter q).find? p = l.find? (fun a => q a && p a) := by
  induction l with
  | nil => rfl
  | cons a t ih =>
    by_cases hq : q a
    · by_cases hp : p a
      · simp [List.filter_cons, hq, List.find?_cons, hp]
      · simp [List.filter_cons, hq, List.find?_cons, hp, ih]
    · simp [List.filter_cons, hq, List.find?_cons, ih]

theorem filter_filter_comm {α : Type} (l : List α) (q p : α → Bool) :
    (l.filter q).filter p = l.filter (fun a => q a && p a) := by
  induction l with
  | nil => rfl
  | cons a t ih =>
    by_cases hq : q a
    · by_cases hp : p a
      · simp [List.filter_cons, hq, hp, ih]
      · simp [List.filter_cons, hq, hp, ih]
    · simp [List.filter_cons, hq, ih]

theorem count_filter_of_true {α : Type} [DecidableEq α] (l : List α) (q : α → Bool)
    (a : α) (h : q a = true) : (l.filter q).count a = l.count a := by
  induction l with
  | nil => rfl
  | cons b t ih =>
    by_cases hb : b = a
    · subst hb
      simp [List.filter_cons, h, List.count_cons, ih]
    · by_cases hq : q b
      · simp [List.filter_cons, hq, List.count_cons, hb, ih]
      · simp [List.filter_cons, hq, List.count_cons, hb, ih]

theorem counts_value (posts : List Post) (ids : List Nat) (k : Nat) (hk : k ∈ ids) :
    (((posts.filter (fun p =>
        p.categories.any (fun c => ids.contains c) && !p.isDeleted
          && p.status == "published")).map Post.categories).flatten.filter
      (fun c => ids.contains c)).count k
    = ((posts.filter (fun p => !p.isDeleted && p.status == "published")).map
        (fun p => p.categories.count k)).sum := by
  induction posts with
  | nil => rfl
  | cons p rest ih =>
    cases hbase : (!p.isDeleted && p.status == "published") with
    | true =>
      cases hany : p.categories.any (fun c => ids.contains c) with
      | true =>
        have hcond : (p.categories.any (fun c => ids.contains c) && !p.isDeleted
            && p.status == "published") = true := by
          rw [Bool.and_assoc, hany, hbase]; rfl
        simp only [List.filter_cons, hcond, if_true, hbase, List.map_cons,
          List.flatten_cons, List.filter_append, List.count_append, List.sum_cons]
        rw [ih, count_filter_of_true _ _ _ (by simpa using hk)]
      | false =>
        have hcond : (p.categories.any (fun c => ids.contains c) && !p.isDeleted
            && p.status == "published") = false := by
          rw [Bool.and_assoc, hany]; rfl
        have hzero : p.categories.count k = 0 := by
          rw [List.count_eq_zero]
          intro hmem
          have : p.categories.any (fun c => ids.contains c) = true := by
            rw [List.any_eq_true]
            exact ⟨k, hmem, by simpa using hk⟩
          rw [hany] at this
          cases this
        simp only [List.filter_cons, hcond, if_false, hbase, if_true, List.map_cons,
          List.sum_cons, hzero, Nat.zero_add]
        exact ih
    | false =>
      have hcond : (p.categories.any (fun c => ids.contains c) && !p.isDeleted
          && p.status == "published") = false := by
        rw [Bool.and_assoc, hbase, Bool.and_false]
      simp only [List.filter_cons, hcond, if_false, hbase]
      exact ih

/-- C7: each batch function returns exactly one entry per requested
key, in the order requested, and the entry for key `k` is the matching
row — the first active category / tag / non-deleted post with that id,
the active subcategories of that parent, the count of published
non-deleted posts referencing that category — with `null`, the empty
list, or `0` when nothing matches; no key produces an error. -/
theorem loaders_per_key (cats : List Category) (tags : List Tag) (posts : List Post)
    (ids : List Nat) :
    ((categoriesBatch cats ids).length = ids.length
      ∧ ∀ (j k : Nat), ids[j]? = some k →
        (categoriesBatch cats ids)[j]? = some (cats.find? (fun c => c.id == k && c.isActive)))
    ∧ ((tagsBatch tags ids).length = ids.length
      ∧ ∀ (j k : Nat), ids[j]? = some k →
        (tagsBatch tags ids)[j]? = some (tags.find? (fun t => t.id == k)))
    ∧ ((postsBatch posts ids).length = ids.length
      ∧ ∀ (j k : Nat), ids[j]? = some k →
        (postsBatch posts ids)[j]? = some (posts.find? (fun p => p.id == k && !p.isDeleted)))
    ∧ ((subcategoriesBatch cats ids).length = ids.length
      ∧ ∀ (j k : Nat), ids[j]? = some k →
        (subcategoriesBatch cats ids)[j]?
          = some (cats.filter (fun c => c.parent == some k && c.isActive)))
    ∧ ((categoryPostCountsBatch posts ids).length = ids.length
      ∧ ∀ (j k : Nat), ids[j]? = some k →
        (categoryPostCountsBatch posts ids)[j]?
          = some (((posts.filter (fun p => !p.isDeleted && p.status == "published")).map
              (fun p => p.categories.count k)).sum)) := by
  refine ⟨⟨by simp [categoriesBatch], ?_⟩, ⟨by simp [tagsBatch], ?_⟩,
    ⟨by simp [postsBatch], ?_⟩, ⟨by simp [subcategoriesBatch], ?_⟩,
    ⟨by simp [categoryPostCountsBatch], ?_⟩⟩
  · intro j k hj
    have hk : k ∈ ids := List.getElem?_mem hj
    simp only [categoriesBatch, List.getElem?_map, hj, Option.map_some']
    rw [find?_filter_comm]
    congr 2
    funext c
    by_cases hc : c.id = k
    · simp [hc, hk, Bool.and_comm]
    · have hc2 : (c.id == k) = false := by simpa using hc
      simp [hc2]
  · intro j k hj
    simp only [tagsBatch, List.getElem?_map, hj, Option.map_some']
    rw [find?_filter_comm]
    have hk : k ∈ ids := List.getElem?_mem hj
    congr 2
    funext t
    by_cases ht : t.id = k
    · simp [ht, hk]
    · simp [ht]
  · intro j k hj
    have hk : k ∈ ids := List.getElem?_mem hj
    simp only [postsBatch, findActive, List.getElem?_map, hj, Option.map_some']
    rw [find?_filter_comm]
    congr 2
    funext p
    by_cases hp : p.id = k
    · simp [hp, hk, Bool.and_comm]
    · have hp2 : (p.id == k) = false := by simpa using hp
      simp [hp2]
  · intro j k hj
    have hk : k ∈ ids := List.getElem?_mem hj
    simp only [subcategoriesBatch, List.getElem?_map, hj, Option.map_some']
    rw [filter_filter_comm]
    congr 2
    funext c
    cases hc : c.parent with
    | none => simp [hc]
    | some pp =>
      by_cases hpp : pp = k
      · subst hpp
        simp [hc, hk, Bool.and_comm]
      · have hpp2 : (pp == k) = false := by simpa using hpp
        simp [hc, hpp2]
  · intro j k hj
    have hk : k ∈ ids := List.getElem?_mem hj
    simp only [categoryPostCountsBatch, List.getElem?_map, hj, Option.map_some']
    rw [counts_value posts ids k hk]

/-- Witness for C7 at a concrete store: ids `[2, 99]` — category 2
resolves, the missing id 99 resolves to `null` / `[]` / `0`. -/
theorem loaders_per_key_witness :
    (categoriesBatch hierStore [2, 99])[0]? = some (some ⟨2, "b", "b", some 1, true⟩)
    ∧ (categoriesBatch hierStore [2, 99])[1]? = some none
    ∧ (tagsBatch [⟨7, "t", "t"⟩] [7, 99])[1]? = some none
    ∧ (postsBatch [] [5])[0]? = some none
    ∧ (subcategoriesBatch hierStore [1, 99])[0]? = some [⟨2, "b", "b", some 1, true⟩]
    ∧ (subcategoriesBatch hierStore [1, 99])[1]? = some []
    ∧ (categoryPostCountsBatch [] [1])[0]? = some 0 := by
  have h := loaders_per_key hierStore [⟨7, "t", "t"⟩] [] [2, 99]
  refine ⟨?_, ?_, ?_, ?_, ?_, ?_, ?_⟩
  · rw [h.1.2 0 2 rfl]; decide
  · rw [h.1.2 1 99 rfl]; decide
  · rw [(loaders_per_key hierStore [⟨7, "t", "t"⟩] [] [7, 99]).2.1.2 1 99 rfl]; decide
  · rw [(loaders_per_key hierStore [⟨7, "t", "t"⟩] [] [5]).2.2.1.2 0 5 rfl]; decide
  · rw [(loaders_per_key hierStore [⟨7, "t", "t"⟩] [] [1, 99]).2.2.2.1.2 0 1 rfl]; decide
  · rw [(loaders_per_key hierStore [⟨7, "t", "t"⟩] [] [1, 99]).2.2.2.1.2 1 99 rfl]; decide
  · rw [(loaders_per_key hierStore [⟨7, "t", "t"⟩] [] [1]).2.2.2.2.2 0 1 rfl]; decide

/-! ### Soft deletion and reads (`src/graphql/resolvers.js` lines 202-218, 484-503) -/

/-- Modelled from the spec: `Post.softDelete` is invoked by
`Mutation.deletePost` (`src/graphql/resolvers.js` line 494) but is not
defined in the provided `models/Post.js` snapshot; per the spec it sets
the `isDeleted`/`deletedAt` soft-delete marker instead of removing the
row. -/
def softDelete (posts : List Post) (i : Nat) (now : Nat) : List Post :=
  posts.map (fun p => if p.id = i then
    { p with isDeleted := true, deletedAt := some now } else p)

/-- `Mutation.deletePost` (`src/graphql/resolvers.js` lines 484-503):
look up the non-deleted post; not-found error when absent; otherwise
soft-delete it. -/
def deletePost (posts : List Post) (i : Nat) (now : Nat) : Except String (List Post) :=
  match posts.find? (fun p => p.id == i && !p.isDeleted) with
  | none => .error "NotFound"
  | some _ => .ok (softDelete posts i now)

/-- The predicate of `Query.searchPosts` (`src/graphql/resolvers.js`
lines 347-366): text match AND not deleted AND published. -/
def searchPostsPred (q : String) (p : Post) : Bool :=
  textSearchMatches q p && !p.isDeleted && (p.status == "published")

/-- `Query.post` (`src/graphql/resolvers.js` lines 202-218): find the
non-deleted post by id (not-found error otherwise), increment its view
count and save it back — the save re-runs `PostSchema.pre('save')`. -/
def queryPost (posts : List Post) (i : Nat) (now : Nat) :
    Except String (Post × List Post) :=
  match posts.find? (fun p => p.id == i && !p.isDeleted) with
  | none => .error "NotFound"
  | some p =>
    let saved := savePost { p with viewCount := (p.viewCount + 1) } now
    .ok (saved, posts.map (fun q => if q.id = i then saved else q))

/-- C9: deleting an existing non-deleted post succeeds and soft-deletes
it: the collection keeps the same number of rows, every other post is
untouched, the post is stored with the marker set, and it is afterwards
invisible to the default reads — the active listing, the single-post
query, every compiled filter, and search. -/
theorem deletePost_soft (posts : List Post) (i : Nat) (now : Nat) (p : Post)
    (hfind : posts.find? (fun q => q.id == i && !q.isDeleted) = some p) :
    ∃ posts2, deletePost posts i now = .ok posts2
      ∧ posts2.length = posts.length
      ∧ (∀ q ∈ posts, q.id ≠ i → q ∈ posts2)
      ∧ (∀ q ∈ posts2, q.id = i → q.isDeleted = true ∧ q.deletedAt = some now)
      ∧ (∀ q ∈ findActive posts2 (fun _ => true), q.id ≠ i)
      ∧ (∀ now2, queryPost posts2 i now2 = .error "NotFound")
      ∧ (∀ f q, q ∈ posts2 → q.id = i → postMatches (buildFilterQuery f) q = false)
      ∧ (∀ s q, q ∈ posts2 → q.id = i → searchPostsPred s q = false) := by
  have hmark : ∀ q ∈ softDelete posts i now, q.id = i →
      q.isDeleted = true ∧ q.deletedAt = some now := by
    intro q hq hqi
    rw [softDelete, List.mem_map] at hq
    obtain ⟨r, hr, hrq⟩ := hq
    by_cases hri : r.id = i
    · rw [if_pos hri] at hrq
      rw [← hrq]
      exact ⟨rfl, rfl⟩
    · rw [if_neg hri] at hrq
      rw [← hrq] at hqi
      exact absurd hqi hri
  refine ⟨softDelete posts i now, ?_, ?_, ?_, hmark, ?_, ?_, ?_, ?_⟩
  · simp [deletePost, hfind]
  · simp [softDelete]
  · intro q hq hqi
    rw [softDelete, List.mem_map]
    exact ⟨q, hq, by rw [if_neg hqi]⟩
  · intro q hq
    rw [findActive, List.mem_filter] at hq
    obtain ⟨hq, hcond⟩ := hq
    intro hqi
    have := (hmark q hq hqi).1
    simp [this] at hcond
  · intro now2
    rw [queryPost]
    have : (softDelete posts i now).find? (fun p => p.id == i && !p.isDeleted) = none := by
      rw [List.find?_eq_none]
      intro q hq hcond
      rw [Bool.and_eq_true, beq_iff_eq, Bool.not_eq_true'] at hcond
      exact absurd ((hmark q hq hcond.1).1) (by rw [hcond.2]; exact Bool.false_ne_true)
    rw [this]
  · intro f q hq hqi
    have hdel := (hmark q hq hqi).1
    simp [postMatches, buildFilterQuery, hdel]
  · intro s q hq hqi
    have hdel := (hmark q hq hqi).1
    simp [searchPostsPred, hdel]

/-- Witness for C9 at a concrete one-post store. -/
theorem deletePost_soft_witness :
    deletePost [⟨1, "t", "c", some "t", "draft", none, 0, 1, [], [], none, 0, 0, false, none⟩] 1 9
      = .ok [⟨1, "t", "c", some "t", "draft", none, 0, 1, [], [], none, 0, 0, true, some 9⟩] := by
  obtain ⟨posts2, hok, _, _, _, _, _, _, _⟩ := deletePost_soft
    [⟨1, "t", "c", some "t", "draft", none, 0, 1, [], [], none, 0, 0, false, none⟩] 1 9
    ⟨1, "t", "c", some "t", "draft", none, 0, 1, [], [], none, 0, 0, false, none⟩ (by decide)
  have h2 : deletePost [⟨1, "t", "c", some "t", "draft", none, 0, 1, [], [], none, 0, 0, false, none⟩] 1 9
      = .ok [⟨1, "t", "c", some "t", "draft", none, 0, 1, [], [], none, 0, 0, true, some 9⟩] := by
    rfl
  have : posts2 = [⟨1, "t", "c", some "t", "draft", none, 0, 1, [], [], none, 0, 0, true, some 9⟩] :=
    Except.ok.inj (hok.symm.trans h2)
  rw [← this]
  exact hok

/-- The middleware ignores `viewCount`; bumping it commutes with the
middleware. -/
theorem preSavePost_viewCount_comm (p : Post) (now v : Nat) :
    preSavePost { p with viewCount := v } now
      = { preSavePost p now with viewCount := v } := by
  obtain ⟨i, t, c, sl, st, pa, ua, ver, cats, tags, au, vc, rt, d, da⟩ := p
  unfold preSavePost publishStep readingStep slugStep
  simp only
  split <;> split <;> split <;> split <;> rfl

/-- C10 counterexample: reading post 1 — stored with `updatedAt = 3` —
at save time 9 increments `viewCount`, but the `post.save()` the read
performs also restamps `updatedAt` to 9 through the schema's
`timestamps: true`; another field changed, so the read does not leave
every field besides `viewCount` unchanged. -/
theorem queryPost_changes_more :
    queryPost [⟨1, "t", "hi there", some "t", "draft", none, 3, 1, [], [], none, 4, 1, false, none⟩] 1 9
      = .ok (⟨1, "t", "hi there", some "t", "draft", none, 9, 1, [], [], none, 5, 1, false, none⟩,
          [⟨1, "t", "hi there", some "t", "draft", none, 9, 1, [], [], none, 5, 1, false, none⟩])
    ∧ (9 : Nat) ≠ 3 := ⟨rfl, by decide⟩

/-- C10 amended: a successful single-post read of a stored
(save-consistent) post returns and stores that post with `viewCount`
incremented by exactly 1 and `updatedAt` restamped to the save time —
the timestamp bump of the save the read performs — and every other
field unchanged. -/
theorem queryPost_frame (posts : List Post) (i now : Nat) (p : Post)
    (hfind : posts.find? (fun q => q.id == i && !q.isDeleted) = some p)
    (hcons : ∀ n, preSavePost p n = p) :
    queryPost posts i now
      = .ok ({ p with viewCount := p.viewCount + 1, updatedAt := now },
          posts.map (fun q => if q.id = i then
            { p with viewCount := p.viewCount + 1, updatedAt := now } else q)) := by
  rw [queryPost, hfind]
  dsimp only
  rw [savePost, preSavePost_viewCount_comm, hcons now]

/-- Witness for C10's amended theorem at a concrete store: reading
post 1 bumps its view counter and its update timestamp, nothing else. -/
theorem queryPost_frame_witness :
    queryPost [⟨1, "t", "hi there", some "t", "draft", none, 3, 1, [], [], none, 4, 1, false, none⟩] 1 9
      = .ok (⟨1, "t", "hi there", some "t", "draft", none, 9, 1, [], [], none, 5, 1, false, none⟩,
          [⟨1, "t", "hi there", some "t", "draft", none, 9, 1, [], [], none, 5, 1, false, none⟩]) := by
  have h := queryPost_frame
    [⟨1, "t", "hi there", some "t", "draft", none, 3, 1, [], [], none, 4, 1, false, none⟩] 1 9
    ⟨1, "t", "hi there", some "t", "draft", none, 3, 1, [], [], none, 4, 1, false, none⟩
    (by decide) (fun n => by rfl)
  simpa using h

end VersaBlog
